import Mathlib

/-!
Verification of the persistence and task-lifecycle logic of the
Simple Shift Manager application (`app_code.py`).

The application keeps all state in one JSON document
`{employees: [...], tasks: [...]}` backed by a single file, and every
operation is a full load → mutate → save cycle.  We embed the document as
the structure `Data`, the backing file as `FileState` (absent, corrupt
with some raw content, or holding a parsed document), and each Python
function as a Lean function over these.  Sources of nondeterminism in the
Python code — `uuid4()` token/task-id generation and wall-clock
timestamps — become explicit parameters (a token generator `tok : Nat →
String`, and plain string arguments for fresh ids and timestamps).
-/

namespace ShiftManager

/-- An employee record, the elements of `data["employees"]`.  A missing
`token` key in the JSON is modelled as the empty string (Python's
`emp.get("token")` treats a missing key and `""` alike: both are falsy). -/
structure Employee where
  id : String
  name : String
  phone : String
  email : String
  token : String
deriving DecidableEq, Repr

/-- A task record, the elements of `data["tasks"]`.  `proof` is `none` for
JSON `null`; `completed_at` is `none` when the key is absent (before the
first completion). -/
structure Task where
  task_id : String
  employee_id : String
  task_text : String
  shift : String
  date : String
  assigned_at : String
  completed : Bool
  proof : Option String
  completed_at : Option String
deriving DecidableEq, Repr

/-- The root JSON document `{employees: [...], tasks: [...]}`. -/
structure Data where
  employees : List Employee
  tasks : List Task
deriving DecidableEq, Repr

/-- The backing file `data.json`: absent, present but unparseable (with
its raw content), or present and parseable to a document. -/
inductive FileState where
  | absent : FileState
  | corrupt : String → FileState
  | valid : Data → FileState
deriving DecidableEq, Repr

/-- Embedding of `save_data`: serialize the full document, overwriting the file. -/
def save_data (d : Data) : FileState :=
  FileState.valid d

/-- The six placeholder employees synthesized by `load_data` on first run:
ids `"1"`..`"6"`, names `"Employee 1"`..`"Employee 6"`, blank phone and
email, and a freshly generated token for each. -/
def defaultEmployees (tok : Nat → String) : List Employee :=
  (List.range 6).map fun i =>
    { id := toString (i + 1), name := "Employee " ++ toString (i + 1),
      phone := "", email := "", token := tok i }

/-- Embedding of `load_data`: if the file is absent, synthesize the default document,
persist it and return it; if present but unparseable, return the empty
document without writing; otherwise return the parsed document.  The
result pairs the returned document with the file state after the call. -/
def load_data (tok : Nat → String) : FileState → Data × FileState
  | FileState.absent =>
      let d : Data := { employees := defaultEmployees tok, tasks := [] }
      (d, save_data d)
  | FileState.corrupt s => ({ employees := [], tasks := [] }, FileState.corrupt s)
  | FileState.valid d => (d, FileState.valid d)

/-- The task dictionary built by `add_task`: fresh `task_id`, the given
fields, `completed = False`, `proof = None`, no `completed_at` key. -/
def mkTask (tid eid text shift date assigned : String) : Task :=
  { task_id := tid, employee_id := eid, task_text := text, shift := shift,
    date := date, assigned_at := assigned, completed := false,
    proof := none, completed_at := none }

/-- Python truthiness of the optional `proof_fname` argument: `None` and
the empty string are falsy. -/
def truthy : Option String → Bool
  | none => false
  | some s => s != ""

/-- The in-place mutation `mark_complete` performs on a matching task:
set `completed`, overwrite `proof` only when `proof_fname` is truthy, and
set `completed_at`. -/
def markTask (proof_fname : Option String) (now : String) (t : Task) : Task :=
  { t with completed := true,
           proof := if truthy proof_fname then proof_fname else t.proof,
           completed_at := some now }

/-- The `for ... break` loop of `mark_complete`: mutate only the first
task whose `task_id` matches, leaving all others untouched. -/
def markFirst (task_id : String) (proof_fname : Option String) (now : String) :
    List Task → List Task
  | [] => []
  | t :: ts =>
      if t.task_id = task_id then markTask proof_fname now t :: ts
      else t :: markFirst task_id proof_fname now ts

/-- The document transformation of `add_task`: append the new task. -/
def add_doc (tid eid text shift date assigned : String) (d : Data) : Data :=
  { d with tasks := d.tasks ++ [mkTask tid eid text shift date assigned] }

/-- The document transformation of `mark_complete`. -/
def mark_doc (task_id : String) (proof_fname : Option String) (now : String)
    (d : Data) : Data :=
  { d with tasks := markFirst task_id proof_fname now d.tasks }

/-- The document transformation of `delete_employee`: drop the employee
records with the given id and the tasks referencing it. -/
def delete_doc (emp_id : String) (d : Data) : Data :=
  { employees := d.employees.filter fun e => e.id != emp_id,
    tasks := d.tasks.filter fun t => t.employee_id != emp_id }

/-- Embedding of `add_task(employee_id, task_text, shift_label, task_date)`:
load, append the new task, save, return the task. -/
def add_task (tok : Nat → String) (tid eid text shift date assigned : String)
    (fs : FileState) : Task × FileState :=
  let p := load_data tok fs
  (mkTask tid eid text shift date assigned,
   save_data (add_doc tid eid text shift date assigned p.1))

/-- Embedding of `mark_complete(task_id, proof_fname)`: load, mark the first matching
task (a silent no-op when none matches), save. -/
def mark_complete (tok : Nat → String) (task_id : String)
    (proof_fname : Option String) (now : String) (fs : FileState) : FileState :=
  let p := load_data tok fs
  save_data (mark_doc task_id proof_fname now p.1)

/-- Embedding of `delete_employee(emp_id)`: load, filter out the employee and its
tasks, save. -/
def delete_employee (tok : Nat → String) (emp_id : String)
    (fs : FileState) : FileState :=
  let p := load_data tok fs
  save_data (delete_doc emp_id p.1)

/-- Python `str.strip()` on a character list: drop leading and trailing
whitespace. -/
def stripChars (cs : List Char) : List Char :=
  ((cs.dropWhile Char.isWhitespace).reverse.dropWhile Char.isWhitespace).reverse

/-- Python `str.strip()`: the string without leading and trailing
whitespace. -/
def pyStrip (s : String) : String :=
  String.mk (stripChars s.data)

/-- Accumulator pass of decimal parsing: consume digits, failing on any
non-digit character. -/
def parseNatChars : List Char → Nat → Option Nat
  | [], acc => some acc
  | c :: cs, acc =>
      if c.isDigit then parseNatChars cs (acc * 10 + (c.toNat - 48)) else none

/-- Python `int(s)` for decimal strings: surrounding whitespace allowed,
an optional sign, then a non-empty digit run; anything else raises
(`none` here). -/
def pyInt? (s : String) : Option Int :=
  match stripChars s.data with
  | [] => none
  | '-' :: cs =>
      if cs = [] then none
      else (parseNatChars cs 0).map fun n => -(n : Int)
  | '+' :: cs =>
      if cs = [] then none
      else (parseNatChars cs 0).map fun n => (n : Int)
  | cs => (parseNatChars cs 0).map fun n => (n : Int)

/-- The list comprehension `[int(e["id"]) for e in employees]` of the Add
Employee handler: parse every employee id as an integer, failing (as
Python `int()` raises `ValueError`) at the first unparseable id. -/
def idsInts : List Employee → Option (List Int)
  | [] => some []
  | e :: es =>
      match pyInt? e.id, idsInts es with
      | some n, some ns => some (n :: ns)
      | _, _ => none

/-- Outcome of the Add Employee handler: the empty-name validation error
(document untouched), a crash from an unparseable id, or success with the
new record and the saved document. -/
inductive AddResult where
  | validationError : AddResult
  | idParseFailure : AddResult
  | added : Employee → Data → AddResult
deriving DecidableEq, Repr

/-- The Add Employee button handler: reject a blank name with an error
and no mutation; otherwise compute `next_id` as
`str(max([int(e["id"]) for e in employees] + [0]) + 1)`, append the new
record with stripped fields and a fresh token, and save. -/
def add_employee (name phone email newtok : String) (d : Data) : AddResult :=
  if pyStrip name = "" then AddResult.validationError
  else
    match idsInts d.employees with
    | none => AddResult.idParseFailure
    | some ns =>
        let next_id := toString (ns.foldl max 0 + 1)
        let emp : Employee :=
          { id := next_id, name := pyStrip name, phone := pyStrip phone,
            email := pyStrip email, token := newtok }
        AddResult.added emp
          { employees := d.employees ++ [emp], tasks := d.tasks }

/-- The in-place field assignment of the Save button handler for one
employee row: overwrite `name`, `phone`, `email` with the stripped inputs,
leaving `id` and `token` alone. -/
def stripAll (name phone email : String) (e : Employee) : Employee :=
  { e with name := pyStrip name, phone := pyStrip phone, email := pyStrip email }

/-- Apply `f` to the element at position `i` of the employee list,
modelling in-place mutation of one record of the loaded snapshot. -/
def updateAt : Nat → (Employee → Employee) → List Employee → List Employee
  | _, _, [] => []
  | 0, f, e :: es => f e :: es
  | Nat.succ j, f, e :: es => e :: updateAt j f es

/-- The Save button handler for the employee row at position `i`:
overwrite that record's mutable fields and save the document. -/
def update_employee_doc (i : Nat) (name phone email : String) (d : Data) : Data :=
  { d with employees := updateAt i (stripAll name phone email) d.employees }

/-- The lazy token backfill of the share-link loop:
`if not emp.get("token"): emp["token"] = str(uuid4())` — generate a token
only when the record has none (missing key or empty string). -/
def ensure_token (fresh : String) (e : Employee) : Employee :=
  if e.token = "" then { e with token := fresh } else e

/-- One user-triggered mutation of the document, for reasoning about
sequences of operations (claim C9 quantifies over these). -/
inductive Op where
  | addT : String → String → String → String → String → String → Op
  | markC : String → Option String → String → Op
  | delE : String → Op
deriving DecidableEq, Repr

/-- The document transformation of one operation, reusing the embeddings
of `add_task`, `mark_complete` and `delete_employee`. -/
def applyOp : Op → Data → Data
  | Op.addT tid eid text shift date assigned, d => add_doc tid eid text shift date assigned d
  | Op.markC tid p now, d => mark_doc tid p now d
  | Op.delE eid, d => delete_doc eid d

/-- Apply a sequence of operations left to right. -/
def applyOps (ops : List Op) (d : Data) : Data :=
  ops.foldl (fun acc op => applyOp op acc) d

/-- An operation is fresh for a task id when it is not an `add_task` call
reusing that very id (in the application, `uuid4()` task ids are never
reused). -/
def opFresh (tid : String) : Op → Bool
  | Op.addT tid2 _ _ _ _ _ => tid2 != tid
  | _ => true

/-- A concrete token generator used to instantiate theorems whose token
generator is hypothesized injective and non-empty. -/
def tokW (n : Nat) : String :=
  "tok-" ++ toString n

/-- A concrete employee, used to instantiate universally quantified
theorems. -/
def empW : Employee :=
  { id := "1", name := "Alice", phone := "491555", email := "a@x", token := "tk1" }

/-- A second concrete employee. -/
def empW2 : Employee :=
  { id := "2", name := "Bob", phone := "", email := "", token := "tk2" }

/-- A concrete pending task assigned to `empW`. -/
def taskW : Task :=
  mkTask "tid1" "1" "Clean counter" "Morning" "2026-10-12" "t0"

/-- A second concrete pending task, assigned to `empW2`. -/
def taskW2 : Task :=
  mkTask "tid2" "2" "Sweep" "Night" "2026-10-12" "t1"

/-- A concrete document with two employees and two pending tasks. -/
def dW : Data :=
  { employees := [empW, empW2], tasks := [taskW, taskW2] }

/-- A concrete document whose first task is already completed with a
recorded proof. -/
def dWdone : Data :=
  { employees := [empW, empW2],
    tasks := [markTask (some "pf.jpg") "t2" taskW, taskW2] }

/-- A concrete operation sequence: an unrelated task creation, a
completion of `"tid1"`, an employee deletion, and a no-op completion. -/
def opsW : List Op :=
  [Op.addT "tid9" "1" "Restock" "Morning" "2026-10-13" "t5",
   Op.markC "tid1" none "t6",
   Op.delE "2",
   Op.markC "ghost" (some "p.png") "t7"]

/- ------------------------------------------------------------------ -/
/- Theorems                                                           -/
/- ------------------------------------------------------------------ -/

/-- The loop `markFirst` is the identity when no task in the list carries the
requested id: the `for`/`break` loop of `mark_complete` finds nothing to
mutate. -/
theorem markFirst_eq_of_no_match (tid : String) (p : Option String)
    (now : String) (ts : List Task) :
    (∀ t ∈ ts, t.task_id ≠ tid) → markFirst tid p now ts = ts := by
  induction ts with
  | nil => intro _; rfl
  | cons t ts ih =>
      intro h
      have ht : t.task_id ≠ tid := h t (List.mem_cons_self t ts)
      simp only [markFirst, if_neg ht]
      rw [ih fun u hu => h u (List.mem_cons_of_mem t hu)]

/-- C1: on a missing backing file, `load_data` synthesizes, persists and
returns a document with exactly six employees named `"Employee 1"`
through `"Employee 6"`, blank phone and email, distinct non-empty tokens
(the token generator is hypothesized injective and non-empty on the six
indices used, as `uuid4()` is), and an empty task list; the file after
the call holds exactly the returned document. -/
theorem load_absent_seeds_defaults (tok : Nat → String)
    (hinj : ∀ i, i < 6 → ∀ j, j < 6 → i ≠ j → tok i ≠ tok j)
    (hne : ∀ i, i < 6 → tok i ≠ "") :
    (load_data tok FileState.absent).1.employees.length = 6 ∧
    (load_data tok FileState.absent).1.employees.map Employee.name =
      ["Employee 1", "Employee 2", "Employee 3", "Employee 4", "Employee 5",
       "Employee 6"] ∧
    (∀ e ∈ (load_data tok FileState.absent).1.employees,
      e.phone = "" ∧ e.email = "" ∧ e.token ≠ "") ∧
    ((load_data tok FileState.absent).1.employees.map Employee.token).Nodup ∧
    (load_data tok FileState.absent).1.tasks = [] ∧
    (load_data tok FileState.absent).2 =
      FileState.valid (load_data tok FileState.absent).1 := by
  refine ⟨?_, ?_, ?_, ?_, rfl, rfl⟩
  · simp [load_data, defaultEmployees]
  · rfl
  · intro e he
    simp only [load_data, defaultEmployees, List.mem_map, List.mem_range] at he
    obtain ⟨i, hi, rfl⟩ := he
    exact ⟨rfl, rfl, hne i hi⟩
  · have hmap : (load_data tok FileState.absent).1.employees.map Employee.token =
        (List.range 6).map tok := rfl
    rw [hmap]
    refine List.Nodup.map_on ?_ (List.nodup_range 6)
    intro x hx y hy hxy
    by_contra hxy2
    exact hinj x (List.mem_range.mp hx) y (List.mem_range.mp hy) hxy2 hxy

/-- Witness for C1: the concrete generator `tokW` is injective and
non-empty on the six seed indices, and seeding with it yields six
employees. -/
theorem load_absent_seeds_defaults_w :
    (∀ i, i < 6 → ∀ j, j < 6 → i ≠ j → tokW i ≠ tokW j) ∧
    (∀ i, i < 6 → tokW i ≠ "") ∧
    (load_data tokW FileState.absent).1.employees.length = 6 :=
  ⟨by decide, by decide,
    (load_absent_seeds_defaults tokW (by decide) (by decide)).1⟩

/-- C7: when the backing file exists but its content is unparseable,
`load_data` returns the empty document `{employees: [], tasks: []}`
without signaling an error (the corrupt-file branch returns normally). -/
theorem load_corrupt_returns_empty (tok : Nat → String) (s : String) :
    (load_data tok (FileState.corrupt s)).1 = { employees := [], tasks := [] } :=
  rfl

/-- C10: on an unparseable backing file, `load_data` returns the empty
fallback document and performs no save — the file keeps its corrupt
content after the call, unlike the first-run branch; only a later
mutation (here: any `mark_complete` call) persists over it. -/
theorem load_corrupt_performs_no_save (tok : Nat → String) (s : String)
    (tid : String) (p : Option String) (now : String) :
    (load_data tok (FileState.corrupt s)).1 = { employees := [], tasks := [] } ∧
    (load_data tok (FileState.corrupt s)).2 = FileState.corrupt s ∧
    mark_complete tok tid p now (FileState.corrupt s) =
      FileState.valid { employees := [], tasks := [] } :=
  ⟨rfl, rfl, rfl⟩

/-- C2: `mark_complete` on a task id matching no task in the document
does not raise (it is a total function) and leaves the persisted document
exactly as it was. -/
theorem mark_complete_missing_id_no_change (tok : Nat → String) (d : Data)
    (tid : String) (p : Option String) (now : String)
    (h : ∀ t ∈ d.tasks, t.task_id ≠ tid) :
    mark_complete tok tid p now (FileState.valid d) = FileState.valid d := by
  simp only [mark_complete, load_data, mark_doc, save_data,
    markFirst_eq_of_no_match tid p now d.tasks h]

/-- Witness for C2: on the concrete document `dW`, whose task ids are
`"tid1"` and `"tid2"`, marking the unknown id `"ghost"` changes nothing. -/
theorem mark_complete_missing_id_no_change_w :
    (∀ t ∈ dW.tasks, t.task_id ≠ "ghost") ∧
    mark_complete tokW "ghost" none "t9" (FileState.valid dW) =
      FileState.valid dW :=
  ⟨by decide, mark_complete_missing_id_no_change tokW dW "ghost" none "t9"
    (by decide)⟩

/-- C4: `delete_employee` keeps exactly the employees whose id differs
from the given id and the tasks whose `employee_id` differs from it, and
the survivors are kept unchanged and in order (sublists of the
originals). -/
theorem delete_employee_exact (tok : Nat → String) (d : Data) (eid : String) :
    ∃ d2, delete_employee tok eid (FileState.valid d) = FileState.valid d2 ∧
      (∀ e, e ∈ d2.employees ↔ e ∈ d.employees ∧ e.id ≠ eid) ∧
      (∀ t, t ∈ d2.tasks ↔ t ∈ d.tasks ∧ t.employee_id ≠ eid) ∧
      List.Sublist d2.employees d.employees ∧
      List.Sublist d2.tasks d.tasks := by
  refine ⟨delete_doc eid d, rfl, ?_, ?_, ?_, ?_⟩
  · intro e
    simp [delete_doc, List.mem_filter, bne_iff_ne]
  · intro t
    simp [delete_doc, List.mem_filter, bne_iff_ne]
  · exact List.filter_sublist _
  · exact List.filter_sublist _

/-- C5: `add_task` returns the new task — `completed = false`,
`proof = null`, carrying the given employee id, text, shift and date —
and the persisted document is the old one with exactly that task
appended, written before the call returns; no uniqueness check on
(employee, date, shift) exists: an immediate second call with the same
employee, text, shift and date appends a second task. -/
theorem add_task_appends_and_allows_duplicates (tok : Nat → String) (d : Data)
    (tid eid text shift date assigned tid2 assigned2 : String) :
    ∃ d2, add_task tok tid eid text shift date assigned (FileState.valid d) =
        (mkTask tid eid text shift date assigned, FileState.valid d2) ∧
      d2.employees = d.employees ∧
      d2.tasks = d.tasks ++ [mkTask tid eid text shift date assigned] ∧
      (mkTask tid eid text shift date assigned).completed = false ∧
      (mkTask tid eid text shift date assigned).proof = none ∧
      (mkTask tid eid text shift date assigned).employee_id = eid ∧
      (mkTask tid eid text shift date assigned).task_text = text ∧
      (mkTask tid eid text shift date assigned).shift = shift ∧
      (mkTask tid eid text shift date assigned).date = date ∧
      ∃ d3, (add_task tok tid2 eid text shift date assigned2
          (FileState.valid d2)).2 = FileState.valid d3 ∧
        d3.tasks = d.tasks ++ [mkTask tid eid text shift date assigned,
          mkTask tid2 eid text shift date assigned2] := by
  refine ⟨add_doc tid eid text shift date assigned d, rfl, rfl, rfl, rfl, rfl,
    rfl, rfl, rfl, rfl,
    add_doc tid2 eid text shift date assigned2
      (add_doc tid eid text shift date assigned d), rfl, ?_⟩
  simp [add_doc]

/-- Marking a present task with a truthy proof and then again without one
leaves the first matching task completed, with the proof from the first
call still recorded. -/
theorem markFirst_twice_find (tid pf now1 now2 : String) (ts : List Task)
    (hpf : pf ≠ "") :
    (∃ t ∈ ts, t.task_id = tid) →
    ∃ t', (markFirst tid none now2 (markFirst tid (some pf) now1 ts)).find?
        (fun t => t.task_id == tid) = some t' ∧
      t'.completed = true ∧ t'.proof = some pf := by
  induction ts with
  | nil =>
      rintro ⟨t, ht, _⟩
      exact absurd ht (List.not_mem_nil t)
  | cons t ts ih =>
      intro h
      by_cases htid : t.task_id = tid
      · have h1 : markFirst tid (some pf) now1 (t :: ts) =
            markTask (some pf) now1 t :: ts := by
          simp [markFirst, htid]
        have h2 : (markTask (some pf) now1 t).task_id = tid := htid
        have h3 : markFirst tid none now2 (markTask (some pf) now1 t :: ts) =
            markTask none now2 (markTask (some pf) now1 t) :: ts := by
          simp [markFirst, markTask, htid]
        refine ⟨markTask none now2 (markTask (some pf) now1 t), ?_, rfl, ?_⟩
        · rw [h1, h3]
          exact List.find?_cons_of_pos ts (by simp [markTask, htid])
        · simp [markTask, truthy, hpf]
      · have h' : ∃ u ∈ ts, u.task_id = tid := by
          obtain ⟨u, hu, hid⟩ := h
          rcases List.mem_cons.mp hu with rfl | hu2
          · exact absurd hid htid
          · exact ⟨u, hu2, hid⟩
        obtain ⟨t', hfind, hc, hp⟩ := ih h'
        refine ⟨t', ?_, hc, hp⟩
        have e1 : markFirst tid (some pf) now1 (t :: ts) =
            t :: markFirst tid (some pf) now1 ts := by
          simp [markFirst, htid]
        have e2 : markFirst tid none now2 (t :: markFirst tid (some pf) now1 ts) =
            t :: markFirst tid none now2 (markFirst tid (some pf) now1 ts) := by
          simp [markFirst, htid]
        rw [e1, e2, List.find?_cons_of_neg _ (by simp [htid]), hfind]

/-- C3: `mark_complete` is idempotent in its terminal effect on a present
task: marking it with a proof filename and then marking the same id again
without one leaves the task completed, with the proof recorded by the
first call still in place. -/
theorem mark_complete_idempotent (tok : Nat → String) (d : Data)
    (tid pf now1 now2 : String) (hpf : pf ≠ "")
    (h : ∃ t ∈ d.tasks, t.task_id = tid) :
    ∃ d2, mark_complete tok tid none now2
        (mark_complete tok tid (some pf) now1 (FileState.valid d)) =
      FileState.valid d2 ∧
      ∃ t', d2.tasks.find? (fun t => t.task_id == tid) = some t' ∧
        t'.completed = true ∧ t'.proof = some pf :=
  ⟨mark_doc tid none now2 (mark_doc tid (some pf) now1 d), rfl,
    markFirst_twice_find tid pf now1 now2 d.tasks hpf h⟩

/-- Witness for C3: on `dW`, completing `"tid1"` with proof `"pf.jpg"`
and completing it again without a proof leaves it completed with that
proof. -/
theorem mark_complete_idempotent_w :
    ("pf.jpg" ≠ "" ∧ ∃ t ∈ dW.tasks, t.task_id = "tid1") ∧
    ∃ d2, mark_complete tokW "tid1" none "t3"
        (mark_complete tokW "tid1" (some "pf.jpg") "t2" (FileState.valid dW)) =
      FileState.valid d2 ∧
      ∃ t', d2.tasks.find? (fun t => t.task_id == "tid1") = some t' ∧
        t'.completed = true ∧ t'.proof = some "pf.jpg" :=
  ⟨⟨by decide, by decide⟩,
    mark_complete_idempotent tokW dW "tid1" "pf.jpg" "t2" "t3" (by decide)
      (by decide)⟩

/-- Every element of `markFirst`'s output is either an untouched element
of the input or the marked version of one. -/
theorem markFirst_mem (tid0 : String) (p : Option String) (now : String)
    (ts : List Task) (t : Task) (ht : t ∈ markFirst tid0 p now ts) :
    t ∈ ts ∨ ∃ u, u ∈ ts ∧ t = markTask p now u := by
  induction ts with
  | nil =>
      simp only [markFirst] at ht
      exact absurd ht (List.not_mem_nil t)
  | cons u ts ih =>
      by_cases h : u.task_id = tid0
      · simp only [markFirst, if_pos h] at ht
        rcases List.mem_cons.mp ht with rfl | ht2
        · exact Or.inr ⟨u, List.mem_cons_self u ts, rfl⟩
        · exact Or.inl (List.mem_cons_of_mem u ht2)
      · simp only [markFirst, if_neg h] at ht
        rcases List.mem_cons.mp ht with rfl | ht2
        · exact Or.inl (List.mem_cons_self t ts)
        · rcases ih ht2 with h1 | ⟨v, hv, rfl⟩
          · exact Or.inl (List.mem_cons_of_mem u h1)
          · exact Or.inr ⟨v, List.mem_cons_of_mem u hv, rfl⟩

/-- One operation preserves "every task with this id is completed",
provided the operation does not create a task reusing the id. -/
theorem applyOp_preserves_completed (tid : String) (op : Op) (d : Data)
    (hfresh : opFresh tid op = true)
    (hstay : ∀ t ∈ d.tasks, t.task_id = tid → t.completed = true) :
    ∀ t ∈ (applyOp op d).tasks, t.task_id = tid → t.completed = true := by
  cases op with
  | addT tid2 eid text shift date assigned =>
      intro t ht hid
      simp only [applyOp, add_doc, List.mem_append, List.mem_singleton] at ht
      rcases ht with ht | rfl
      · exact hstay t ht hid
      · exfalso
        simp only [opFresh, bne_iff_ne] at hfresh
        exact hfresh (by simpa [mkTask] using hid)
  | markC tid0 p now =>
      intro t ht hid
      simp only [applyOp, mark_doc] at ht
      rcases markFirst_mem tid0 p now d.tasks t ht with h1 | ⟨u, _, rfl⟩
      · exact hstay t h1 hid
      · rfl
  | delE eid =>
      intro t ht hid
      simp only [applyOp, delete_doc] at ht
      exact hstay t (List.mem_filter.mp ht).1 hid

/-- A sequence of fresh operations preserves "every task with this id is
completed". -/
theorem applyOps_preserves_completed (tid : String) (ops : List Op) :
    ∀ d : Data, (∀ op ∈ ops, opFresh tid op = true) →
      (∀ t ∈ d.tasks, t.task_id = tid → t.completed = true) →
      ∀ t ∈ (applyOps ops d).tasks, t.task_id = tid → t.completed = true := by
  induction ops with
  | nil => intro d _ hstay; exact hstay
  | cons op ops ih =>
      intro d hfresh hstay
      exact ih (applyOp op d)
        (fun o ho => hfresh o (List.mem_cons_of_mem op ho))
        (applyOp_preserves_completed tid op d
          (hfresh op (List.mem_cons_self op ops)) hstay)

/-- C9: the completed flag is monotonic false→true: `add_task` creates
tasks with `completed = false`, and once every task carrying an id is
completed, no sequence of `add_task`, `mark_complete`, `delete_employee`
operations (with `add_task` never reusing that id, as `uuid4()`
guarantees) ever yields a task with that id and `completed = false`. -/
theorem completed_flag_monotonic (d : Data) (tid : String) (ops : List Op)
    (tid2 eid text shift date assigned : String)
    (hstay : ∀ t ∈ d.tasks, t.task_id = tid → t.completed = true)
    (hfresh : ∀ op ∈ ops, opFresh tid op = true) :
    (mkTask tid2 eid text shift date assigned).completed = false ∧
    ∀ t ∈ (applyOps ops d).tasks, t.task_id = tid → t.completed = true :=
  ⟨rfl, applyOps_preserves_completed tid ops d hfresh hstay⟩

/-- Witness for C9: starting from `dWdone` (where `"tid1"` is completed)
and running the concrete sequence `opsW`, every surviving task with id
`"tid1"` is still completed. -/
theorem completed_flag_monotonic_w :
    ((∀ t ∈ dWdone.tasks, t.task_id = "tid1" → t.completed = true) ∧
      (∀ op ∈ opsW, opFresh "tid1" op = true)) ∧
    ((mkTask "tid8" "1" "Mop" "Night" "2026-10-14" "t8").completed = false ∧
      ∀ t ∈ (applyOps opsW dWdone).tasks, t.task_id = "tid1" →
        t.completed = true) :=
  ⟨⟨by decide, by decide⟩,
    completed_flag_monotonic dWdone "tid1" opsW "tid8" "1" "Mop" "Night"
      "2026-10-14" "t8" (by decide) (by decide)⟩

/-- The update `updateAt` leaves any string-valued field unchanged across the whole
list when the update function preserves that field. -/
theorem updateAt_map_field (g : Employee → String) (f : Employee → Employee)
    (hf : ∀ e, g (f e) = g e) (es : List Employee) :
    ∀ i, (updateAt i f es).map g = es.map g := by
  induction es with
  | nil => intro i; cases i <;> rfl
  | cons e es ih =>
      intro i
      cases i with
      | zero => simp [updateAt, hf]
      | succ i2 => simp [updateAt, ih i2]

/-- The update `updateAt` leaves every position other than the updated one
untouched. -/
theorem updateAt_get?_ne (f : Employee → Employee) (es : List Employee) :
    ∀ i j, j ≠ i → (updateAt i f es).get? j = es.get? j := by
  induction es with
  | nil => intro i j _; cases i <;> rfl
  | cons e es ih =>
      intro i j hne
      cases i with
      | zero =>
          cases j with
          | zero => exact absurd rfl hne
          | succ j2 => rfl
      | succ i2 =>
          cases j with
          | zero => rfl
          | succ j2 => exact ih i2 j2 fun h => hne (by rw [h])

/-- The update `updateAt` applies the update function exactly at the given
position. -/
theorem updateAt_get?_eq (f : Employee → Employee) (es : List Employee) :
    ∀ i, (updateAt i f es).get? i = (es.get? i).map f := by
  induction es with
  | nil => intro i; cases i <;> rfl
  | cons e es ih =>
      intro i
      cases i with
      | zero => rfl
      | succ i2 => exact ih i2

/-- C8: an employee's token is never regenerated while the record exists:
the Save handler overwrites only `name`, `phone`, `email` of the one
edited record (every id and token in the document is unchanged, all other
records and the tasks are untouched), and the lazy backfill
`ensure_token` changes nothing on a record that already has a token,
fills only a missing one, and never touches the other fields. -/
theorem token_never_regenerated (d : Data) (i : Nat)
    (name phone email fresh : String) (e : Employee) :
    ((update_employee_doc i name phone email d).employees.map Employee.id =
        d.employees.map Employee.id ∧
      (update_employee_doc i name phone email d).employees.map Employee.token =
        d.employees.map Employee.token ∧
      (update_employee_doc i name phone email d).tasks = d.tasks ∧
      (∀ j, j ≠ i →
        (update_employee_doc i name phone email d).employees.get? j =
          d.employees.get? j) ∧
      (update_employee_doc i name phone email d).employees.get? i =
        (d.employees.get? i).map (stripAll name phone email)) ∧
    ((stripAll name phone email e).id = e.id ∧
      (stripAll name phone email e).token = e.token ∧
      (stripAll name phone email e).name = pyStrip name ∧
      (stripAll name phone email e).phone = pyStrip phone ∧
      (stripAll name phone email e).email = pyStrip email) ∧
    ((e.token ≠ "" → ensure_token fresh e = e) ∧
      (e.token = "" → (ensure_token fresh e).token = fresh) ∧
      (ensure_token fresh e).id = e.id ∧
      (ensure_token fresh e).name = e.name ∧
      (ensure_token fresh e).phone = e.phone ∧
      (ensure_token fresh e).email = e.email) := by
  refine ⟨⟨?_, ?_, rfl, ?_, ?_⟩, ⟨rfl, rfl, rfl, rfl, rfl⟩, ?_, ?_, ?_, ?_, ?_, ?_⟩
  · exact updateAt_map_field Employee.id (stripAll name phone email)
      (fun _ => rfl) d.employees i
  · exact updateAt_map_field Employee.token (stripAll name phone email)
      (fun _ => rfl) d.employees i
  · exact fun j hj => updateAt_get?_ne (stripAll name phone email)
      d.employees i j hj
  · exact updateAt_get?_eq (stripAll name phone email) d.employees i
  · intro h; simp [ensure_token, h]
  · intro h; simp [ensure_token, h]
  · by_cases h : e.token = "" <;> simp [ensure_token, h]
  · by_cases h : e.token = "" <;> simp [ensure_token, h]
  · by_cases h : e.token = "" <;> simp [ensure_token, h]
  · by_cases h : e.token = "" <;> simp [ensure_token, h]

/-- Witness for C8: the concrete employee `empW` already has a token, so
the lazy backfill leaves the record exactly as it is. -/
theorem token_never_regenerated_w :
    empW.token ≠ "" ∧ ensure_token "fresh9" empW = empW :=
  ⟨by decide,
    (token_never_regenerated dW 0 "N" "P" "E" "fresh9" empW).2.2.1 (by decide)⟩

/-- The seed of a left max-fold is a lower bound of the result. -/
theorem init_le_foldl_max (ns : List Int) : ∀ a : Int, a ≤ ns.foldl max a := by
  induction ns with
  | nil => intro a; exact le_refl a
  | cons n ns ih =>
      intro a
      exact le_trans (le_max_left a n) (ih (max a n))

/-- Every list element is a lower bound of a left max-fold over the
list. -/
theorem mem_le_foldl_max (ns : List Int) :
    ∀ a : Int, ∀ n ∈ ns, n ≤ ns.foldl max a := by
  induction ns with
  | nil => intro a n hn; exact absurd hn (List.not_mem_nil n)
  | cons m ns ih =>
      intro a n hn
      rcases List.mem_cons.mp hn with rfl | hn2
      · exact le_trans (le_max_right a n) (init_le_foldl_max ns (max a n))
      · exact ih (max a m) n hn2

/-- A left max-fold returns either its seed or a list element. -/
theorem foldl_max_mem (ns : List Int) :
    ∀ a : Int, ns.foldl max a = a ∨ ns.foldl max a ∈ ns := by
  induction ns with
  | nil => intro a; exact Or.inl rfl
  | cons n ns ih =>
      intro a
      rcases ih (max a n) with h | h
      · rcases max_choice a n with h2 | h2
        · exact Or.inl (h.trans h2)
        · refine Or.inr ?_
          have h3 : (n :: ns).foldl max a = n := by
            show ns.foldl max (max a n) = n
            rw [h, h2]
          rw [h3]
          exact List.mem_cons_self n ns
      · exact Or.inr (List.mem_cons_of_mem n h)

/-- When the id comprehension succeeds, every employee's id parses to
some element of the produced list. -/
theorem idsInts_mem_parse (es : List Employee) :
    ∀ ns : List Int, idsInts es = some ns →
      ∀ e ∈ es, ∃ n ∈ ns, pyInt? e.id = some n := by
  induction es with
  | nil =>
      intro ns _ e he
      exact absurd he (List.not_mem_nil e)
  | cons e0 es ih =>
      intro ns h e he
      cases h0 : pyInt? e0.id with
      | none =>
          cases h1 : idsInts es with
          | none =>
              simp only [idsInts, h0, h1] at h
              exact Option.noConfusion h
          | some ns0 =>
              simp only [idsInts, h0, h1] at h
              exact Option.noConfusion h
      | some n0 =>
          cases h1 : idsInts es with
          | none =>
              simp only [idsInts, h0, h1] at h
              exact Option.noConfusion h
          | some ns0 =>
              simp only [idsInts, h0, h1] at h
              injection h with h2
              subst h2
              rcases List.mem_cons.mp he with rfl | he2
              · exact ⟨n0, List.mem_cons_self n0 ns0, h0⟩
              · obtain ⟨n, hn, hp⟩ := ih ns0 h1 e he2
                exact ⟨n, List.mem_cons_of_mem n0 hn, hp⟩

/-- C6: the Add Employee handler rejects a blank name with an error and
no mutation; otherwise it appends a record whose id is the string of one
plus the max-fold of the existing numeric ids seeded with 0 — hence
`"1"` on an empty registry, strictly greater than every existing numeric
id, and, whenever the existing ids are non-negative (as the sequential
ids the app generates always are), exactly one plus their maximum — with
a fresh token. -/
theorem add_employee_spec (d : Data) (name phone email newtok : String) :
    (pyStrip name = "" →
      add_employee name phone email newtok d = AddResult.validationError) ∧
    (∀ ns : List Int, pyStrip name ≠ "" → idsInts d.employees = some ns →
      ∃ emp, add_employee name phone email newtok d =
          AddResult.added emp
            { employees := d.employees ++ [emp], tasks := d.tasks } ∧
        emp.id = toString (ns.foldl max 0 + 1) ∧
        emp.token = newtok ∧
        emp.name = pyStrip name ∧
        (d.employees = [] → emp.id = "1") ∧
        (∀ e ∈ d.employees, ∀ n : Int, pyInt? e.id = some n →
          n < ns.foldl max 0 + 1) ∧
        ((∀ n ∈ ns, 0 ≤ n) → d.employees ≠ [] →
          ∃ m ∈ ns, (∀ k ∈ ns, k ≤ m) ∧ emp.id = toString (m + 1))) := by
  constructor
  · intro h
    simp only [add_employee, if_pos h]
  · intro ns hname hids
    refine ⟨{ id := toString (ns.foldl max 0 + 1), name := pyStrip name,
              phone := pyStrip phone, email := pyStrip email,
              token := newtok },
      ?_, rfl, rfl, rfl, ?_, ?_, ?_⟩
    · simp only [add_employee, if_neg hname, hids]
    · intro h0
      rw [h0] at hids
      simp only [idsInts] at hids
      injection hids with h2
      subst h2
      rfl
    · intro e he n hp
      obtain ⟨n2, hn2, hp2⟩ := idsInts_mem_parse d.employees ns hids e he
      rw [hp] at hp2
      have h3 := Option.some.inj hp2
      subst h3
      exact Int.lt_add_one_iff.mpr (mem_le_foldl_max ns 0 n hn2)
    · intro hnn hne2
      cases hemp : d.employees with
      | nil => exact absurd hemp hne2
      | cons e0 es =>
          have he0 : e0 ∈ d.employees := by
            rw [hemp]; exact List.mem_cons_self e0 es
          obtain ⟨n0, hn0, _⟩ := idsInts_mem_parse d.employees ns hids e0 he0
          rcases foldl_max_mem ns 0 with h | h
          · have hle : n0 ≤ 0 := h ▸ mem_le_foldl_max ns 0 n0 hn0
            have h0 : n0 = 0 := le_antisymm hle (hnn n0 hn0)
            refine ⟨n0, hn0, ?_, ?_⟩
            · intro k hk
              rw [h0]
              exact h ▸ mem_le_foldl_max ns 0 k hk
            · rw [h0]
              show toString (ns.foldl max 0 + 1) = toString ((0 : Int) + 1)
              rw [h]
          · exact ⟨ns.foldl max 0, h,
              fun k hk => mem_le_foldl_max ns 0 k hk, rfl⟩

/-- Witness for C6: adding `"Alex"` to the two-employee document `dW`
(ids `"1"`, `"2"`) yields a record with id `"3"`, the fresh token, and
all the stated bounds. -/
theorem add_employee_spec_w :
    (pyStrip "Alex" ≠ "" ∧ idsInts dW.employees = some [1, 2]) ∧
    (∃ emp, add_employee "Alex" "4915551234" "" "tk9" dW =
        AddResult.added emp
          { employees := dW.employees ++ [emp], tasks := dW.tasks } ∧
      emp.id = toString (([1, 2] : List Int).foldl max 0 + 1) ∧
      emp.token = "tk9" ∧
      emp.name = pyStrip "Alex" ∧
      (dW.employees = [] → emp.id = "1") ∧
      (∀ e ∈ dW.employees, ∀ n : Int, pyInt? e.id = some n →
        n < ([1, 2] : List Int).foldl max 0 + 1) ∧
      ((∀ n ∈ ([1, 2] : List Int), 0 ≤ n) → dW.employees ≠ [] →
        ∃ m ∈ ([1, 2] : List Int), (∀ k ∈ ([1, 2] : List Int), k ≤ m) ∧
          emp.id = toString (m + 1))) :=
  ⟨⟨by decide, by decide⟩,
    (add_employee_spec dW "Alex" "4915551234" "" "tk9").2 [1, 2]
      (by decide) (by decide)⟩

end ShiftManager
